import Mathlib

/-!
Verification development for a breadth-first documentation scraper.

URLs, file paths and markup are modelled as `List Char`; the host file
system separator (`os.sep`) is modelled as `'/'` (a POSIX system).
Selenium, BeautifulSoup, the OpenAI client and `urllib` are external
collaborators: pages are modelled by the data the crawler reads from
them (title, selectable elements, anchor targets), and the oracle by the
trace of outcomes of its remote calls.
-/

abbrev Str := List Char

/-- Boolean test that `pat` is a leading segment of `s`
(Python `str.startswith`). -/
def beginsWith : Str → Str → Bool
  | [], _ => true
  | _ :: _, [] => false
  | p :: ps, c :: cs => p == c && beginsWith ps cs

/-- Python `str.rstrip('/')`: remove every trailing `'/'`. -/
def rstripSlash (s : Str) : Str :=
  (s.reverse.dropWhile (fun c => c == '/')).reverse

def httpsL : Str := ['h', 't', 't', 'p', 's', ':', '/', '/']

def httpL : Str := ['h', 't', 't', 'p', ':', '/', '/']

def wwwL : Str := ['w', 'w', 'w', '.']

def downloadedL : Str := ['d', 'o', 'w', 'n', 'l', 'o', 'a', 'd', 'e', 'd']

def mdL : Str := ['.', 'm', 'd']

/-- First half of the regex `^(?:https?://)?(?:www\.)?`: drop one leading
scheme, if present. -/
def stripSchemePart (u : Str) : Str :=
  if beginsWith httpsL u then u.drop 8
  else if beginsWith httpL u then u.drop 7
  else u

/-- Second half of the same regex: drop one leading `www.`, if present. -/
def stripWwwPart (u : Str) : Str :=
  if beginsWith wwwL u then u.drop 4 else u

/-- `Scraper.normalize_url`:
`re.sub(r'^(?:https?://)?(?:www\.)?', '', url).rstrip('/')`. -/
def normalize_url (u : Str) : Str :=
  rstripSlash (stripWwwPart (stripSchemePart u))

/-- Python `s.endswith(os.sep)` with `os.sep = '/'`. -/
def endsWithSlash (s : Str) : Bool :=
  match s.reverse with
  | [] => false
  | c :: _ => c == '/'

/-- `os.path.join` for two components on a POSIX system. -/
def pjoin (a b : Str) : Str :=
  if beginsWith ['/'] b then b
  else if a == [] || endsWithSlash a then a ++ b
  else a ++ '/' :: b

/-- The separator `os.path.join` places before a relative second
component: nothing when the first component is empty or already ends in
the separator, `'/'` otherwise. -/
def joinK (a : Str) : Str :=
  if a == [] || endsWithSlash a then a else a ++ ['/']

/-- `os.path.dirname` (posixpath): the part of `p` before its last `'/'`,
with trailing separators stripped unless the result is all separators. -/
def dirname (p : Str) : Str :=
  let head := (p.reverse.dropWhile (fun c => !(c == '/'))).reverse
  if head == [] then head
  else if head.any (fun c => !(c == '/')) then rstripSlash head
  else head

/-- Python `url.split('/')[-1]`: the part after the last `'/'`. -/
def lastSegment (u : Str) : Str :=
  (u.reverse.takeWhile (fun c => !(c == '/'))).reverse

/-- `scrape_website`: `os.path.join('downloaded',
os.path.dirname(normalized_start_url.replace('/', os.sep)))`
(the `replace` is the identity with `os.sep = '/'`). -/
def base_path (start_url : Str) : Str :=
  pjoin downloadedL (dirname (normalize_url start_url))

/-- `scrape_website`: `normalized_start_url.split('/')[0]`. -/
def domain_root (start_url : Str) : Str :=
  (normalize_url start_url).takeWhile (fun c => !(c == '/'))

/-- `scrape_website`: `start_url.split('/')[-1]`. -/
def starting_point (start_url : Str) : Str :=
  lastSegment start_url

/-- `scrape_website`: `os.path.join(cwd, 'downloaded', domain_root,
starting_point + '.md')`. -/
def compiled_markdown_path (cwd start_url : Str) : Str :=
  pjoin (pjoin (pjoin cwd downloadedL) (domain_root start_url))
    (starting_point start_url ++ mdL)

/-- Fuel-indexed core of Python `str.replace(pat, '')`: delete every
non-overlapping occurrence of `pat`, scanning left to right. The fuel is
always instantiated with the length of the scanned string. -/
def replaceAllAux : ℕ → Str → Str → Str
  | _, [], _ => []
  | 0, s, _ => s
  | fuel + 1, c :: rest, pat =>
    if pat ≠ [] && beginsWith pat (c :: rest) then
      replaceAllAux fuel ((c :: rest).drop pat.length) pat
    else
      c :: replaceAllAux fuel rest pat

/-- Python `s.replace(pat, '')`. -/
def replaceAll (s pat : Str) : Str :=
  replaceAllAux s.length s pat

/-- `save_markdown_file`'s local `normalized_url`:
`url.replace('https://', '').replace('http://', '').rstrip('/')`. -/
def artifact_norm (url : Str) : Str :=
  rstripSlash (replaceAll (replaceAll url httpsL) httpL)

/-- `save_markdown_file`'s `file_path`: `os.path.join('downloaded',
normalized_url.replace('/', os.sep) + '.md')`. -/
def save_file_path (url : Str) : Str :=
  pjoin downloadedL (artifact_norm url ++ mdL)

/-- `save_markdown_file(url, content, base_path)`, modelled as the pair
(path written to, content written). The `base_path` parameter is part of
the Python signature. -/
def save_markdown_file (url : Str) (content : String) (bp : Str) :
    Str × String :=
  (save_file_path url, content)

/-- One element of a BeautifulSoup result set, reduced to the only datum
the scraper reads from it: `element.get_text(strip=True)`. -/
structure Element where
  strippedText : String

/-- A rendered, parsed page (BeautifulSoup object), reduced to its CSS
`select` behaviour. -/
structure Soup where
  select : String → List Element

/-- The match test used both for the built-in candidates and for oracle
validation: `elements and all(element.get_text(strip=True) for element in
elements)` — a non-empty result set whose members all carry non-empty
stripped text. -/
def selectorMatches (soup : Soup) (sel : String) : Bool :=
  let elements := soup.select sel
  !elements.isEmpty && elements.all (fun e => !e.strippedText.isEmpty)

/-- `Scraper.DOM_SELECTORS`, in source order. -/
def DOM_SELECTORS : List String :=
  ["#ja-current-content", "#ja-content", "main", "article", "div#content",
   "div.content", "div.main-content", "div.post", "section.content",
   "section.main-content", "section.post", "#markdown-page", "#main"]

/-- `Scraper.get_main_content_selector(url, soup)`: scan the candidate
list in order and return the first candidate that matches; otherwise
defer to `_fetch_selector_from_openai`, whose eventual result is the
`oracleResult` parameter. -/
def get_main_content_selector (oracleResult : Option String)
    (selectors : List String) (soup : Option Soup) : Option String :=
  match soup with
  | some s =>
    match selectors.find? (fun sel => selectorMatches s sel) with
    | some sel => some sel
    | none => oracleResult
  | none => oracleResult

/-- One observable outcome of `self.client.chat.completions.create`:
either a reply whose stripped content is `selector`, or a raised
exception. -/
inductive OracleOutcome where
  | reply (selector : String) : OracleOutcome
  | failure : OracleOutcome

/-- The mutable state of the retry loop in `_fetch_selector_from_openai`:
`backoff` (the counter), `backoff_next` (the next sleep), and the record
of the `time.sleep` durations performed so far. -/
structure OracleState where
  backoff : ℕ
  backoffNext : ℚ
  sleeps : List ℚ

/-- Loop entry: `backoff = 0`, `backoff_next = 30`, nothing slept.
(`backoff_next` is a Python float; every value it takes here, 30 times a
power of 1/2, is exactly representable, so ℚ models it faithfully.) -/
def initialOracleState : OracleState := ⟨0, 30, []⟩

/-- Status of the retry loop after consuming a finite trace of remote
outcomes: either the function returned, or the trace is exhausted with
the loop still live. -/
inductive OracleRun where
  | returned (result : Option String) (final : OracleState) : OracleRun
  | running (current : OracleState) : OracleRun

/-- The `while backoff < backoff_max` retry loop of
`_fetch_selector_from_openai` (with `backoff_max = 5`,
`backoff_factor = 0.5`), driven by a trace of remote-call outcomes. A
reply is validated with the same rule as the built-in candidates and
returned if valid; an invalid reply falls through the loop with no state
change; an exception increments `backoff`, sleeps `backoff_next` and
halves it. On loop exit the function returns `None`. -/
def fetch_selector_from_openai (soup : Soup) :
    OracleState → List OracleOutcome → OracleRun
  | st, [] => if st.backoff < 5 then .running st else .returned none st
  | st, o :: rest =>
    if st.backoff < 5 then
      match o with
      | .reply sel =>
        if selectorMatches soup sel then .returned (some sel) st
        else fetch_selector_from_openai soup st rest
      | .failure =>
        fetch_selector_from_openai soup
          ⟨st.backoff + 1, st.backoffNext * (1 / 2),
            st.sleeps ++ [st.backoffNext]⟩ rest
    else .returned none st

/-- The sleep record carried by a run, finished or not. -/
def sleepsOf : OracleRun → List ℚ
  | .returned _ st => st.sleeps
  | .running st => st.sleeps

/-- Characters allowed in a URL scheme (urllib's `scheme_chars`). -/
def schemeChar (c : Char) : Bool :=
  c.isAlpha || c.isDigit || c == '+' || c == '-' || c == '.'

/-- Model of urllib's scheme split: when `u` has a valid `scheme:` head,
the part after the colon; otherwise `u` itself. -/
def removeScheme (u : Str) : Str :=
  let pre := u.takeWhile (fun c => !(c == ':'))
  match u.dropWhile (fun c => !(c == ':')) with
  | _ :: after =>
    match pre with
    | p :: _ => if p.isAlpha && pre.all schemeChar then after else u
    | [] => u
  | [] => u

/-- Model of `urlparse(u).netloc`: present only after a `//`, and runs up
to the next `'/'`, `'?'` or `'#'`. -/
def netloc_of (u : Str) : Str :=
  let rest := removeScheme u
  if beginsWith ['/', '/'] rest then
    (rest.drop 2).takeWhile (fun c => !(c == '/') && !(c == '?') && !(c == '#'))
  else []

/-- The part of `base` up to and including its last `'/'`. -/
def upToLastSlash (base : Str) : Str :=
  (base.reverse.dropWhile (fun c => !(c == '/'))).reverse

/-- Model of `urllib.parse.urljoin` for the reference shapes the crawler
meets: an absolute reference (one with a scheme) is returned as is; a
network-path reference (`//host/...`) adopts the base scheme; an
absolute-path reference adopts the base scheme and authority; any other
reference replaces the base path's last segment. Dot-segment
normalization is not modelled (no claim exercises it). -/
def urljoin (base url : Str) : Str :=
  if url = [] then base
  else if ¬ removeScheme url = url then url
  else if beginsWith ['/', '/'] url then
    base.take (base.length - (removeScheme base).length) ++ url
  else if beginsWith ['/'] url then
    base.take (base.length - (removeScheme base).length) ++
      (if beginsWith ['/', '/'] (removeScheme base) then
        '/' :: '/' :: netloc_of base ++ url
      else url)
  else upToLastSlash base ++ url

/-- `urldefrag(href)[0]`: the reference with its fragment removed. -/
def urldefrag_str (u : Str) : Str :=
  u.takeWhile (fun c => !(c == '#'))

/-- The absolute target of one anchor:
`urljoin(url, urldefrag(link['href'])[0])`. -/
def discovered_url (page_url href : Str) : Str :=
  urljoin page_url (urldefrag_str href)

/-- The admission test of `scrape_website`'s link loop:
`new_url.startswith(start_url) and new_url not in scraped and
parsed_new_url.netloc == parsed_start_url.netloc`. -/
def link_allowed (start_url : Str) (scraped : List Str) (new_url : Str) : Bool :=
  beginsWith start_url new_url && !(scraped.contains new_url) &&
    (netloc_of new_url == netloc_of start_url)

/-- What the crawl loop reads from the external world about one URL: the
rendered page's title test, whether a content selector was resolved
(built-in or oracle), and the anchors found in the rendered DOM. -/
structure PageModel where
  title404 : Bool
  selectorFound : Bool
  hrefs : List Str

/-- The `while to_scrape:` frontier loop of `scrape_website`, returning
the list of URLs processed (fetched, resolved, persisted), in order. An
iteration pops the head; a URL already in `scraped` is skipped;
otherwise it is added to `scraped` and fetched; a 404 title or a failed
selector resolution ends the iteration; otherwise the page is saved and
each admitted anchor target is appended to the queue. The fuel bounds
the number of iterations modelled. -/
def scrape_website (fetch : Str → PageModel) (start_url : Str) :
    ℕ → List Str → List Str → List Str → List Str
  | _, [], _, log => log
  | 0, _ :: _, _, log => log
  | fuel + 1, url :: rest, scraped, log =>
    if url ∈ scraped then scrape_website fetch start_url fuel rest scraped log
    else
      let scraped' := url :: scraped
      let log' := log ++ [url]
      let page := fetch url
      if page.title404 then
        scrape_website fetch start_url fuel rest scraped' log'
      else if page.selectorFound then
        scrape_website fetch start_url fuel
          (rest ++ (page.hrefs.map (fun h => discovered_url url h)).filter
            (fun nu => link_allowed start_url scraped' nu))
          scraped' log'
      else
        scrape_website fetch start_url fuel rest scraped' log'

example : normalize_url ("https://www.ex.com/a/".toList) =
    ("ex.com/a".toList) := by decide

example : save_file_path ("https://ex.com/a/".toList) =
    ("downloaded/ex.com/a.md".toList) := by decide

example : compiled_markdown_path ("/home/u".toList) ("https://ex.com/docs".toList) =
    ("/home/u/downloaded/ex.com/docs.md".toList) := by decide

example : base_path ("https://ex.com/docs".toList) = ("downloaded/ex.com".toList) := by
  decide

/-- A page on which no selector ever matches (every `select` call returns
an empty result set). -/
def emptySoup : Soup := ⟨fun _ => []⟩

/-- A page whose `main` element holds non-empty text and on which every
other selector comes back empty. -/
def mainSoup : Soup :=
  ⟨fun s => if s == "main" then [⟨"Main content"⟩] else []⟩

theorem beginsWith_iff : ∀ (p s : Str), beginsWith p s = true ↔ ∃ t, s = p ++ t
  | [], s => by simp [beginsWith]
  | _ :: _, [] => by simp [beginsWith]
  | p :: ps, c :: cs => by
    simp only [beginsWith, Bool.and_eq_true, beq_iff_eq, List.cons_append,
      List.cons.injEq]
    constructor
    · rintro ⟨rfl, h⟩
      obtain ⟨t, rfl⟩ := (beginsWith_iff ps cs).mp h
      exact ⟨t, rfl, rfl⟩
    · rintro ⟨t, rfl, rfl⟩
      exact ⟨rfl, (beginsWith_iff ps (ps ++ t)).mpr ⟨t, rfl⟩⟩

theorem beginsWith_append (p t : Str) : beginsWith p (p ++ t) = true :=
  (beginsWith_iff p (p ++ t)).mpr ⟨t, rfl⟩

theorem beginsWith_append_cancel : ∀ (a b c : Str),
    beginsWith (a ++ b) (a ++ c) = beginsWith b c
  | [], _, _ => rfl
  | x :: xs, b, c => by
    simp [beginsWith, beginsWith_append_cancel xs b c]

theorem not_beginsWith_of_mem {x : Char} {p s : Str} (hx : x ∈ p)
    (hs : ∀ c ∈ s, c ≠ x) : beginsWith p s = false := by
  cases h : beginsWith p s
  · rfl
  · obtain ⟨t, rfl⟩ := (beginsWith_iff p s).mp h
    exact absurd rfl (hs x (List.mem_append.mpr (Or.inl hx)))

theorem beginsWith_slash_cons {c : Char} (hc : c ≠ '/') (l : Str) :
    beginsWith ['/'] (c :: l) = false := by
  simp [beginsWith, beq_eq_false_iff_ne.mpr (Ne.symm hc)]

theorem dropWhile_append_all {p : Char → Bool} :
    ∀ (a : Str), (∀ c ∈ a, p c = true) → ∀ (b : Str),
      (a ++ b).dropWhile p = b.dropWhile p
  | [], _, _ => rfl
  | c :: rest, h, b => by
    have hc : p c = true := h c (List.mem_cons_self c rest)
    have ih := dropWhile_append_all rest
      (fun d hd => h d (List.mem_cons_of_mem c hd)) b
    simp [List.dropWhile_cons, hc, ih]

theorem dropWhile_append_of_ne_nil {p : Char → Bool} :
    ∀ (a : Str), a.dropWhile p ≠ [] → ∀ (b : Str),
      (a ++ b).dropWhile p = a.dropWhile p ++ b
  | [], h, _ => absurd rfl h
  | c :: rest, h, b => by
    cases hc : p c with
    | false => simp [List.dropWhile_cons, hc]
    | true =>
      have h' : rest.dropWhile p ≠ [] := by
        simpa [List.dropWhile_cons, hc] using h
      simp [List.dropWhile_cons, hc, dropWhile_append_of_ne_nil rest h' b]

theorem dropWhile_all_neg {p : Char → Bool} {l : Str}
    (h : ∀ c ∈ l, p c = false) : l.dropWhile p = l := by
  cases l with
  | nil => rfl
  | cons c rest => simp [List.dropWhile_cons, h c (List.mem_cons_self c rest)]

theorem dropWhile_idem (p : Char → Bool) (l : Str) :
    (l.dropWhile p).dropWhile p = l.dropWhile p := by
  induction l with
  | nil => rfl
  | cons c rest ih =>
    cases hc : p c with
    | false => simp [List.dropWhile_cons, hc]
    | true => simp [List.dropWhile_cons, hc, ih]

theorem takeWhile_append_all {p : Char → Bool} :
    ∀ (a : Str), (∀ c ∈ a, p c = true) → ∀ (b : Str),
      (a ++ b).takeWhile p = a ++ b.takeWhile p
  | [], _, _ => rfl
  | c :: rest, h, b => by
    have hc : p c = true := h c (List.mem_cons_self c rest)
    have ih := takeWhile_append_all rest
      (fun d hd => h d (List.mem_cons_of_mem c hd)) b
    simp [List.takeWhile_cons, hc, ih]

theorem takeWhile_cons_neg {p : Char → Bool} {c : Char} (hc : p c = false)
    (l : Str) : (c :: l).takeWhile p = [] := by
  simp [List.takeWhile_cons, hc]

theorem nonslash_true {c : Char} (h : c ≠ '/') : (!(c == '/')) = true := by
  simp [beq_eq_false_iff_ne.mpr h]

theorem rstripSlash_idem (s : Str) :
    rstripSlash (rstripSlash s) = rstripSlash s := by
  unfold rstripSlash
  rw [List.reverse_reverse, dropWhile_idem]

theorem rstripSlash_append {a b : Str} (h : rstripSlash b ≠ []) :
    rstripSlash (a ++ b) = a ++ rstripSlash b := by
  unfold rstripSlash at *
  have hb : b.reverse.dropWhile (fun c => c == '/') ≠ [] := by
    intro hnil
    exact h (by simp [hnil])
  rw [List.reverse_append, dropWhile_append_of_ne_nil b.reverse hb a.reverse,
    List.reverse_append, List.reverse_reverse]

theorem rstripSlash_all_noslash {s : Str} (h : ∀ c ∈ s, c ≠ '/') :
    rstripSlash s = s := by
  unfold rstripSlash
  rw [dropWhile_all_neg, List.reverse_reverse]
  intro c hc
  exact beq_eq_false_iff_ne.mpr (h c (List.mem_reverse.mp hc))

theorem rstripSlash_append_clean {b : Str} (h0 : b ≠ [])
    (h : ∀ c ∈ b, c ≠ '/') (a : Str) : rstripSlash (a ++ b) = a ++ b := by
  have hb : rstripSlash b ≠ [] := by
    rw [rstripSlash_all_noslash h]; exact h0
  rw [rstripSlash_append hb, rstripSlash_all_noslash h]

theorem rstripSlash_concat_slash (l : Str) :
    rstripSlash (l ++ ['/']) = rstripSlash l := by
  unfold rstripSlash
  rw [List.reverse_append]
  simp [List.dropWhile_cons]

theorem lastSegment_append {b : Str} (h : ∀ c ∈ b, c ≠ '/') (a : Str) :
    lastSegment (a ++ '/' :: b) = b := by
  unfold lastSegment
  have h1 : (a ++ '/' :: b).reverse = b.reverse ++ '/' :: a.reverse := by
    simp
  have hall : ∀ c ∈ b.reverse, (fun c => !(c == '/')) c = true := by
    intro c hc
    exact nonslash_true (h c (List.mem_reverse.mp hc))
  rw [h1, takeWhile_append_all b.reverse hall ('/' :: a.reverse),
    takeWhile_cons_neg (by simp) a.reverse]
  simp

theorem takeWhile_until_slash {a : Str} (h : ∀ c ∈ a, c ≠ '/') (b : Str) :
    (a ++ '/' :: b).takeWhile (fun c => !(c == '/')) = a := by
  have hall : ∀ c ∈ a, (fun c => !(c == '/')) c = true :=
    fun c hc => nonslash_true (h c hc)
  rw [takeWhile_append_all a hall ('/' :: b), takeWhile_cons_neg (by simp) b]
  simp

theorem endsWithSlash_append {b : Str} (h0 : b ≠ []) (h : ∀ c ∈ b, c ≠ '/')
    (a : Str) : endsWithSlash (a ++ b) = false := by
  unfold endsWithSlash
  rw [List.reverse_append]
  cases hb : b.reverse with
  | nil => exact absurd (by simpa using hb) h0
  | cons c tl =>
    have hc : c ∈ b := List.mem_reverse.mp (hb ▸ List.mem_cons_self c tl)
    simp [beq_eq_false_iff_ne.mpr (h c hc)]

theorem pjoin_rel {b : Str} (hb : beginsWith ['/'] b = false) (a : Str) :
    pjoin a b = joinK a ++ b := by
  unfold pjoin joinK
  cases h : (a == [] || endsWithSlash a) <;> simp [hb, h]

theorem joinK_of_clean {a : Str} (ha0 : a ≠ []) (ha : endsWithSlash a = false) :
    joinK a = a ++ ['/'] := by
  simp [joinK, ha, beq_eq_false_iff_ne.mpr ha0]

theorem pjoin_eq_cons {a b : Str} (hb : beginsWith ['/'] b = false)
    (ha0 : a ≠ []) (ha : endsWithSlash a = false) :
    pjoin a b = a ++ '/' :: b := by
  rw [pjoin_rel hb, joinK_of_clean ha0 ha]
  simp

theorem drop_length_append : ∀ (a b : Str), (a ++ b).drop a.length = b
  | [], _ => rfl
  | _ :: xs, b => by
    simpa using drop_length_append xs b

theorem replaceAllAux_fuel {pat : Str} :
    ∀ (f : ℕ) (s : Str), s.length ≤ f → ∀ (g : ℕ), s.length ≤ g →
      replaceAllAux f s pat = replaceAllAux g s pat := by
  intro f
  induction f with
  | zero =>
    intro s hs g _
    have hnil : s = [] := List.length_eq_zero.mp (Nat.le_zero.mp hs)
    subst hnil
    cases g <;> rfl
  | succ f ih =>
    intro s hs g hg
    cases s with
    | nil => cases g <;> rfl
    | cons c rest =>
      cases g with
      | zero => simp at hg
      | succ g =>
        simp only [replaceAllAux]
        by_cases hcond : (decide ¬pat = [] && beginsWith pat (c :: rest)) = true
        · rw [if_pos hcond, if_pos hcond]
          have hp : pat ≠ [] := by
            have h1 : (¬pat = []) ∧ beginsWith pat (c :: rest) = true := by
              simpa using hcond
            exact h1.1
          have hp1 : 1 ≤ pat.length := List.length_pos.mpr hp
          simp only [List.length_cons] at hs hg
          have hlen : ((c :: rest).drop pat.length).length ≤ f := by
            rw [List.length_drop, List.length_cons]
            omega
          have hlen' : ((c :: rest).drop pat.length).length ≤ g := by
            rw [List.length_drop, List.length_cons]
            omega
          exact ih _ hlen g hlen'
        · rw [if_neg hcond, if_neg hcond]
          simp only [List.length_cons] at hs hg
          rw [ih rest (by omega) g (by omega)]

theorem replaceAllAux_id {pat : Str} {x : Char} (hx : x ∈ pat) :
    ∀ (f : ℕ) (s : Str), (∀ c ∈ s, c ≠ x) → replaceAllAux f s pat = s := by
  intro f
  induction f with
  | zero => intro s _; cases s <;> rfl
  | succ f ih =>
    intro s hs
    cases s with
    | nil => rfl
    | cons c rest =>
      have hbw : beginsWith pat (c :: rest) = false :=
        not_beginsWith_of_mem hx hs
      simp [replaceAllAux, hbw,
        ih rest (fun d hd => hs d (List.mem_cons_of_mem c hd))]

theorem replaceAll_no_occurrence {pat s : Str} {x : Char} (hx : x ∈ pat)
    (hs : ∀ c ∈ s, c ≠ x) : replaceAll s pat = s :=
  replaceAllAux_id hx s.length s hs

theorem replaceAllAux_cons_pos {pat : Str} {c : Char} {rest : Str} (f : ℕ)
    (hp : pat ≠ []) (hbw : beginsWith pat (c :: rest) = true) :
    replaceAllAux (f + 1) (c :: rest) pat =
      replaceAllAux f ((c :: rest).drop pat.length) pat := by
  simp [replaceAllAux, hp, hbw]

theorem replaceAll_head {pat : Str} (hp : pat ≠ []) (u : Str) :
    replaceAll (pat ++ u) pat = replaceAll u pat := by
  cases pat with
  | nil => exact absurd rfl hp
  | cons p ps =>
    have h1 : (p :: ps) ++ u = p :: (ps ++ u) := rfl
    have h2 : ((p :: ps) ++ u).length = (ps ++ u).length + 1 := by simp
    unfold replaceAll
    rw [h2, h1, replaceAllAux_cons_pos (ps ++ u).length hp
      (h1 ▸ beginsWith_append (p :: ps) u)]
    have hdrop : (p :: (ps ++ u)).drop (p :: ps).length = u := by
      rw [List.length_cons, List.drop_succ_cons]
      exact drop_length_append ps u
    rw [hdrop]
    exact replaceAllAux_fuel (ps ++ u).length u
      (by simp) u.length (Nat.le_refl _)

theorem find?_eq_some_split {α : Type} {p : α → Bool} {l : List α} {w : α}
    (h : l.find? p = some w) :
    p w = true ∧ ∃ pre post, l = pre ++ w :: post ∧ ∀ x ∈ pre, p x = false := by
  induction l with
  | nil => simp at h
  | cons a l ih =>
    cases ha : p a with
    | true =>
      rw [List.find?_cons_of_pos _ ha, Option.some.injEq] at h
      subst h
      exact ⟨ha, [], l, rfl, by simp⟩
    | false =>
      rw [List.find?_cons_of_neg _ (by simp [ha])] at h
      obtain ⟨hw, pre, post, rfl, hpre⟩ := ih h
      refine ⟨hw, a :: pre, post, rfl, ?_⟩
      intro x hx
      rcases List.mem_cons.mp hx with rfl | hx
      · exact ha
      · exact hpre x hx

theorem find?_exists_of_mem {α : Type} {p : α → Bool} {l : List α} {a : α}
    (ha : a ∈ l) (hpa : p a = true) : ∃ w, l.find? p = some w := by
  cases hf : l.find? p with
  | some w => exact ⟨w, rfl⟩
  | none =>
    rw [List.find?_eq_none] at hf
    exact absurd hpa (hf a ha)

theorem fetch_selector_exhausted (soup : Soup) {st : OracleState}
    (h : ¬ st.backoff < 5) (trace : List OracleOutcome) :
    fetch_selector_from_openai soup st trace = .returned none st := by
  cases trace with
  | nil => simp [fetch_selector_from_openai, h]
  | cons o rest => cases o <;> simp [fetch_selector_from_openai, h]

theorem fetch_selector_five_failures (soup : Soup) (rest : List OracleOutcome) :
    fetch_selector_from_openai soup initialOracleState
      (List.replicate 5 OracleOutcome.failure ++ rest) =
      OracleRun.returned none ⟨5, 15 / 16, [30, 15, 15 / 2, 15 / 4, 15 / 8]⟩ := by
  have hstep : fetch_selector_from_openai soup initialOracleState
      (List.replicate 5 OracleOutcome.failure ++ rest) =
      fetch_selector_from_openai soup
        ⟨5, 15 / 16, [30, 15, 15 / 2, 15 / 4, 15 / 8]⟩ rest := by
    show fetch_selector_from_openai soup initialOracleState
      (.failure :: .failure :: .failure :: .failure :: .failure :: rest) = _
    norm_num [fetch_selector_from_openai, initialOracleState]
  rw [hstep]
  exact fetch_selector_exhausted soup (by simp) rest

theorem scrape_website_nodup_aux (fetch : Str → PageModel) (start_url : Str) :
    ∀ (fuel : ℕ) (queue scraped log : List Str), log.Nodup →
      (∀ u ∈ log, u ∈ scraped) →
      (scrape_website fetch start_url fuel queue scraped log).Nodup := by
  intro fuel
  induction fuel with
  | zero =>
    intro queue scraped log hnd _
    cases queue with
    | nil => simpa [scrape_website] using hnd
    | cons u rest => simpa [scrape_website] using hnd
  | succ fuel ih =>
    intro queue scraped log hnd hsub
    cases queue with
    | nil => simpa [scrape_website] using hnd
    | cons url rest =>
      by_cases hv : url ∈ scraped
      · simpa [scrape_website, hv] using ih rest scraped log hnd hsub
      · have hurl : url ∉ log := fun hmem => hv (hsub url hmem)
        have hnd' : (log ++ [url]).Nodup := by
          rw [List.nodup_append]
          refine ⟨hnd, List.nodup_singleton url, ?_⟩
          intro a ha hb
          rw [List.mem_singleton] at hb
          subst hb
          exact hurl ha
        have hsub' : ∀ u ∈ log ++ [url], u ∈ url :: scraped := by
          intro u hu
          rcases List.mem_append.mp hu with hu | hu
          · exact List.mem_cons_of_mem url (hsub u hu)
          · rw [List.mem_singleton] at hu
            subst hu
            exact List.mem_cons_self u _
        simp only [scrape_website, if_neg hv]
        cases h1 : (fetch url).title404 <;>
          cases h2 : (fetch url).selectorFound <;>
            simp [h1, h2] <;>
              exact ih _ _ _ hnd' hsub'

theorem rstripSlash_of_not_endsWithSlash {s : Str}
    (h : endsWithSlash s = false) : rstripSlash s = s := by
  unfold endsWithSlash at h
  unfold rstripSlash
  cases hr : s.reverse with
  | nil =>
    have : s = [] := by simpa using hr
    subst this
    rfl
  | cons c tl =>
    have h' : (c == '/') = false := by rw [hr] at h; exact h
    have h2 : List.dropWhile (fun c => c == '/') (c :: tl) = c :: tl := by
      simp [List.dropWhile_cons, h']
    rw [h2, ← hr, List.reverse_reverse]

theorem beginsWith_https_http (u : Str) :
    beginsWith httpsL (httpL ++ u) = false := by
  have h : (('s' : Char) == ':') = false := by decide
  simp [httpsL, httpL, beginsWith, h]

theorem beginsWith_https_www (u : Str) :
    beginsWith httpsL (wwwL ++ u) = false := by
  have h : (('h' : Char) == 'w') = false := by decide
  simp [httpsL, wwwL, beginsWith, h]

theorem beginsWith_http_www (u : Str) :
    beginsWith httpL (wwwL ++ u) = false := by
  have h : (('h' : Char) == 'w') = false := by decide
  simp [httpL, wwwL, beginsWith, h]

theorem stripSchemePart_https (u : Str) :
    stripSchemePart (httpsL ++ u) = u := by
  simp only [stripSchemePart, beginsWith_append, if_true]
  exact drop_length_append httpsL u

theorem stripSchemePart_http (u : Str) :
    stripSchemePart (httpL ++ u) = u := by
  simp only [stripSchemePart, beginsWith_https_http, beginsWith_append,
    Bool.false_eq_true, if_false, if_true]
  exact drop_length_append httpL u

theorem stripSchemePart_www (u : Str) :
    stripSchemePart (wwwL ++ u) = wwwL ++ u := by
  simp [stripSchemePart, beginsWith_https_www, beginsWith_http_www]

theorem stripWwwPart_www (u : Str) : stripWwwPart (wwwL ++ u) = u := by
  simp only [stripWwwPart, beginsWith_append, if_true]
  exact drop_length_append wwwL u

/-- Claim C1 (counterexample): the retry loop does not always terminate
within 5 attempts. With a page on which no selector validates, six
consecutive replies that all fail validation leave the loop still
running with its retry counter untouched at 0 — validation failures do
not advance `backoff`, so no bound on attempts follows from the cap. -/
theorem c1_counterexample :
    fetch_selector_from_openai emptySoup initialOracleState
      (List.replicate 6 (OracleOutcome.reply "x")) =
      OracleRun.running initialOracleState := by
  rfl

/-- Claim C1 (amended): the retry counter of
`_fetch_selector_from_openai` counts only remote-call errors: after 5
consecutive transport failures the resolver returns `none` after exactly
5 attempts and never consumes a further outcome, whatever the rest of
the trace holds; validation failures, however, repeat the call without
advancing the counter, so the cap of 5 bounds transport retries only. -/
theorem c1_theorem (soup : Soup) (rest : List OracleOutcome) :
    fetch_selector_from_openai soup initialOracleState
      (List.replicate 5 OracleOutcome.failure ++ rest) =
      OracleRun.returned none ⟨5, 15 / 16, [30, 15, 15 / 2, 15 / 4, 15 / 8]⟩ :=
  fetch_selector_five_failures soup rest

/-- Claim C2 (counterexample): `normalize` is not idempotent on every
URL string: one application to `www.www.ex.com` yields `www.ex.com`, and
a second application strips the newly exposed `www.` prefix again. -/
theorem c2_counterexample :
    normalize_url (normalize_url ("www.www.ex.com".toList)) ≠
      normalize_url ("www.www.ex.com".toList) := by
  decide

/-- Claim C2 (amended): `normalize` is idempotent on every URL whose
normalized form does not itself begin with one of the strippable
affixes `http://`, `https://` or `www.`. -/
theorem c2_theorem (u : Str)
    (h1 : beginsWith httpsL (normalize_url u) = false)
    (h2 : beginsWith httpL (normalize_url u) = false)
    (h3 : beginsWith wwwL (normalize_url u) = false) :
    normalize_url (normalize_url u) = normalize_url u := by
  have hs : stripSchemePart (normalize_url u) = normalize_url u := by
    simp [stripSchemePart, h1, h2]
  have hw : stripWwwPart (normalize_url u) = normalize_url u := by
    simp [stripWwwPart, h3]
  show rstripSlash (stripWwwPart (stripSchemePart (normalize_url u))) =
    normalize_url u
  rw [hs, hw]
  exact rstripSlash_idem (stripWwwPart (stripSchemePart u))

/-- Claim C2 (witness): the amended idempotence law holds at the
concrete URL `https://www.ex.com/a/`. -/
theorem c2_witness :
    beginsWith httpsL (normalize_url ("https://www.ex.com/a/".toList)) = false ∧
    beginsWith httpL (normalize_url ("https://www.ex.com/a/".toList)) = false ∧
    beginsWith wwwL (normalize_url ("https://www.ex.com/a/".toList)) = false ∧
    normalize_url (normalize_url ("https://www.ex.com/a/".toList)) =
      normalize_url ("https://www.ex.com/a/".toList) :=
  ⟨by decide, by decide, by decide,
    c2_theorem ("https://www.ex.com/a/".toList) (by decide) (by decide)
      (by decide)⟩

/-- Claim C5 (counterexample): `normalize` strips every trailing path
separator, not a single one: on `ex.com//` it returns `ex.com` where the
claimed single strip would return `ex.com/`. -/
theorem c5_counterexample :
    normalize_url ("ex.com//".toList) = ("ex.com".toList) ∧
    ("ex.com".toList : Str) ≠ ("ex.com/".toList) := by
  decide

/-- Claim C5 (amended): `normalize` strips one leading `http://` or
`https://` scheme and one optional `www.` host prefix, and strips every
trailing path separator (not just a single one); it is a pure total
function, and an input carrying none of these affixes passes through
unchanged. -/
theorem c5_theorem (u : Str) :
    (beginsWith httpsL u = false → beginsWith httpL u = false →
      beginsWith wwwL u = false → endsWithSlash u = false →
      normalize_url u = u) ∧
    normalize_url (httpsL ++ u) = rstripSlash (stripWwwPart u) ∧
    normalize_url (httpL ++ u) = rstripSlash (stripWwwPart u) ∧
    normalize_url (wwwL ++ u) = rstripSlash u := by
  refine ⟨?_, ?_, ?_, ?_⟩
  · intro h1 h2 h3 h4
    have hs : stripSchemePart u = u := by simp [stripSchemePart, h1, h2]
    have hw : stripWwwPart u = u := by simp [stripWwwPart, h3]
    show rstripSlash (stripWwwPart (stripSchemePart u)) = u
    rw [hs, hw]
    exact rstripSlash_of_not_endsWithSlash h4
  · show rstripSlash (stripWwwPart (stripSchemePart (httpsL ++ u))) = _
    rw [stripSchemePart_https]
  · show rstripSlash (stripWwwPart (stripSchemePart (httpL ++ u))) = _
    rw [stripSchemePart_http]
  · show rstripSlash (stripWwwPart (stripSchemePart (wwwL ++ u))) = _
    rw [stripSchemePart_www, stripWwwPart_www]

/-- Claim C5 (witness): the amended contract evaluated at the affix-free
URL `ex.com/a` and at `https://ex.com/a`. -/
theorem c5_witness :
    normalize_url ("ex.com/a".toList) = ("ex.com/a".toList) ∧
    normalize_url (httpsL ++ ("ex.com/a".toList)) =
      rstripSlash (stripWwwPart ("ex.com/a".toList)) :=
  ⟨(c5_theorem ("ex.com/a".toList)).1 (by decide) (by decide) (by decide)
      (by decide),
    (c5_theorem ("ex.com/a".toList)).2.1⟩

/-- Claim C7: throughout any crawl, the frontier never processes a URL
already marked visited: for every environment, start URL, fuel bound and
initial queue (including queues holding the same URL several times), the
list of URLs processed by `scrape_website` has no duplicates. -/
theorem c7_theorem (fetch : Str → PageModel) (start_url : Str) (fuel : ℕ)
    (queue : List Str) :
    (scrape_website fetch start_url fuel queue [] []).Nodup :=
  scrape_website_nodup_aux fetch start_url fuel queue [] []
    List.nodup_nil (by simp)

/-- Claim C8: on every rendered DOM where some built-in candidate
selector matches — a non-empty selection all of whose elements carry
non-empty stripped text — the resolver answers the first matching
candidate of the priority list, independently of the oracle
collaborator's result (the oracle is never consulted). -/
theorem c8_theorem (soup : Soup) (sel : String) (hmem : sel ∈ DOM_SELECTORS)
    (hmatch : selectorMatches soup sel = true) :
    ∃ w pre post,
      (∀ oracleResult : Option String,
        get_main_content_selector oracleResult DOM_SELECTORS (some soup) =
          some w) ∧
      selectorMatches soup w = true ∧
      DOM_SELECTORS = pre ++ w :: post ∧
      (∀ x ∈ pre, selectorMatches soup x = false) := by
  obtain ⟨w, hw⟩ := find?_exists_of_mem hmem hmatch
  obtain ⟨hpw, pre, post, hsplit, hpre⟩ := find?_eq_some_split hw
  refine ⟨w, pre, post, ?_, hpw, hsplit, hpre⟩
  intro oracleResult
  simp [get_main_content_selector, hw]

/-- Claim C8 (witness): the resolver applied to a page whose `main`
element carries non-empty text. -/
theorem c8_witness :
    ∃ w pre post,
      (∀ oracleResult : Option String,
        get_main_content_selector oracleResult DOM_SELECTORS (some mainSoup) =
          some w) ∧
      selectorMatches mainSoup w = true ∧
      DOM_SELECTORS = pre ++ w :: post ∧
      (∀ x ∈ pre, selectorMatches mainSoup x = false) :=
  c8_theorem mainSoup "main" (by decide) (by decide)

/-- Claim C9: in the oracle fallback's retry loop the sleep delay starts
at the base value 30 and is halved after each retry, so the successive
delays strictly decrease: a full run of 5 transport failures sleeps
exactly 30, 15, 15/2, 15/4, 15/8, each entry half its predecessor. -/
theorem c9_theorem :
    (∀ soup : Soup,
      sleepsOf (fetch_selector_from_openai soup initialOracleState
        (List.replicate 5 OracleOutcome.failure)) =
        [30, 15, 15 / 2, 15 / 4, 15 / 8]) ∧
    initialOracleState.backoffNext = 30 ∧
    List.Chain' (fun a b => b = a * (1 / 2) ∧ b < a)
      [(30 : ℚ), 15, 15 / 2, 15 / 4, 15 / 8] := by
  refine ⟨?_, rfl, ?_⟩
  · intro soup
    have h := fetch_selector_five_failures soup []
    rw [List.append_nil] at h
    rw [h]
    rfl
  · norm_num [List.chain'_cons]

/-- Claim C10: `save_markdown_file` writes to a location that does not
depend on its `base_path` argument; the path is always `downloaded`
joined with the scheme-stripped, trailing-slash-trimmed URL plus the
`.md` extension. -/
theorem c10_theorem (url : Str) (content : String) (bp bp' : Str) :
    save_markdown_file url content bp = save_markdown_file url content bp' ∧
    (save_markdown_file url content bp).1 =
      pjoin downloadedL (artifact_norm url ++ mdL) :=
  ⟨rfl, rfl⟩

theorem pjoin_abs {b : Str} (hb : beginsWith ['/'] b = true) (a : Str) :
    pjoin a b = b := by
  unfold pjoin
  rw [hb]
  simp

theorem pjoin_downloaded_inj {x y : Str} :
    pjoin downloadedL x = pjoin downloadedL y ↔ x = y := by
  have hdl : ∀ z : Str, beginsWith ['/'] (joinK downloadedL ++ z) = false := by
    intro z
    rw [joinK_of_clean (by decide) (by decide)]
    have hform : downloadedL ++ ['/'] ++ z =
        'd' :: (['o', 'w', 'n', 'l', 'o', 'a', 'd', 'e', 'd'] ++ ['/'] ++ z) := by
      simp [downloadedL]
    rw [hform]
    exact beginsWith_slash_cons (by decide) _
  constructor
  · intro h
    cases hx : beginsWith ['/'] x <;> cases hy : beginsWith ['/'] y
    · rw [pjoin_rel hx downloadedL, pjoin_rel hy downloadedL] at h
      exact List.append_cancel_left h
    · exfalso
      rw [pjoin_rel hx downloadedL, pjoin_abs hy downloadedL] at h
      have hc := hdl x
      rw [h, hy] at hc
      exact absurd hc (by simp)
    · exfalso
      rw [pjoin_abs hx downloadedL, pjoin_rel hy downloadedL] at h
      have hc := hdl y
      rw [← h, hx] at hc
      exact absurd hc (by simp)
    · rw [pjoin_abs hx downloadedL, pjoin_abs hy downloadedL] at h
      exact h
  · intro h
    rw [h]

/-- Claim C4 (counterexample): the artifact path derivation is not
injective on distinct URLs sharing a domain: `https://ex.com/a` and
`https://ex.com/a/` map to the same path, and so do `http://ex.com/a`
and `https://ex.com/a` — exactly the pairs the claim requires to stay
apart. -/
theorem c4_counterexample :
    save_file_path ("https://ex.com/a".toList) =
      save_file_path ("https://ex.com/a/".toList) ∧
    save_file_path ("http://ex.com/a".toList) =
      save_file_path ("https://ex.com/a".toList) ∧
    ("https://ex.com/a".toList : Str) ≠ ("https://ex.com/a/".toList) ∧
    ("http://ex.com/a".toList : Str) ≠ ("https://ex.com/a".toList) := by
  decide

/-- Claim C4 (amended): the derivation identifies URLs up to removal of
`https://` and `http://` occurrences and trimming of trailing slashes:
two URLs receive the same artifact path exactly when those normal forms
agree, so same-domain URLs differing in scheme or trailing separator
collide (and overwrite each other), while URLs with distinct normal
forms never do. -/
theorem c4_theorem (u1 u2 : Str) :
    save_file_path u1 = save_file_path u2 ↔
      artifact_norm u1 = artifact_norm u2 := by
  unfold save_file_path
  rw [pjoin_downloaded_inj]
  constructor
  · intro h
    exact List.append_cancel_right h
  · intro h
    rw [h]

/-- Claim C4 (witness): the collision criterion applied to the concrete
pair `https://ex.com/a` and `https://ex.com/a/`. -/
theorem c4_witness :
    artifact_norm ("https://ex.com/a".toList) =
      artifact_norm ("https://ex.com/a/".toList) :=
  (c4_theorem ("https://ex.com/a".toList) ("https://ex.com/a/".toList)).mp
    (by decide)

/-- Claim C6: an anchor target is resolved against the page URL with its
fragment stripped, and the resolved absolute URL is admitted exactly
when it extends the root URL as a string prefix, is not yet visited, and
carries the root's netloc; with root `https://ex.com/docs`, the link
`https://ex.com/blog/x` is rejected and `https://ex.com/docs/sub` is
admitted (its `#intro` fragment being stripped beforehand). -/
theorem c6_theorem :
    (∀ (start_url : Str) (scraped : List Str) (new_url : Str),
      link_allowed start_url scraped new_url = true ↔
        (∃ t, new_url = start_url ++ t) ∧ new_url ∉ scraped ∧
          netloc_of new_url = netloc_of start_url) ∧
    discovered_url ("https://ex.com/docs".toList)
      ("https://ex.com/blog/x".toList) = ("https://ex.com/blog/x".toList) ∧
    link_allowed ("https://ex.com/docs".toList)
      [("https://ex.com/docs".toList)]
      ("https://ex.com/blog/x".toList) = false ∧
    discovered_url ("https://ex.com/docs".toList)
      ("https://ex.com/docs/sub#intro".toList) =
      ("https://ex.com/docs/sub".toList) ∧
    link_allowed ("https://ex.com/docs".toList)
      [("https://ex.com/docs".toList)]
      ("https://ex.com/docs/sub".toList) = true := by
  refine ⟨?_, by decide, by decide, by decide, by decide⟩
  intro start_url scraped new_url
  unfold link_allowed
  simp [Bool.and_eq_true, beginsWith_iff, beq_iff_eq, and_assoc]

/-- Claim C6 (witness): the admission criterion, applied at the concrete
root and accepted link of the claim, yields the three conditions. -/
theorem c6_witness :
    (∃ t, ("https://ex.com/docs/sub".toList : Str) =
      ("https://ex.com/docs".toList) ++ t) ∧
    ("https://ex.com/docs/sub".toList : Str) ∉
      [("https://ex.com/docs".toList : Str)] ∧
    netloc_of ("https://ex.com/docs/sub".toList) =
      netloc_of ("https://ex.com/docs".toList) :=
  (c6_theorem.1 ("https://ex.com/docs".toList)
    [("https://ex.com/docs".toList)] ("https://ex.com/docs/sub".toList)).mp
    (by decide)

theorem beginsWith_slash_downloaded (z : Str) :
    beginsWith ['/'] (downloadedL ++ z) = false := by
  have hform : downloadedL ++ z =
      'd' :: (['o', 'w', 'n', 'l', 'o', 'a', 'd', 'e', 'd'] ++ z) := by
    simp [downloadedL]
  rw [hform]
  exact beginsWith_slash_cons (by decide) _

theorem dirname_append {a b : Str} (hb : ∀ c ∈ b, c ≠ '/')
    (ha : rstripSlash a = a) (hane : ∃ c ∈ a, ¬ c = '/') :
    dirname (a ++ '/' :: b) = a := by
  have h2 : (a ++ '/' :: b).reverse.dropWhile (fun c => !(c == '/')) =
      '/' :: a.reverse := by
    have h1 : (a ++ '/' :: b).reverse = b.reverse ++ '/' :: a.reverse := by
      simp
    rw [h1, dropWhile_append_all b.reverse ?hall ('/' :: a.reverse)]
    · rw [List.dropWhile_cons]
      simp
    case hall =>
      intro c hc
      exact nonslash_true (hb c (List.mem_reverse.mp hc))
  have h3 : ('/' :: a.reverse).reverse = a ++ ['/'] := by simp
  have hc1 : ((a ++ ['/']) == ([] : Str)) = false :=
    beq_eq_false_iff_ne.mpr (by simp)
  obtain ⟨c, hc, hcn⟩ := hane
  have hc2 : (a ++ ['/']).any (fun c => !(c == '/')) = true :=
    List.any_eq_true.mpr ⟨c, List.mem_append.mpr (Or.inl hc), nonslash_true hcn⟩
  unfold dirname
  simp only [h2, h3, hc1, hc2]
  simp only [Bool.false_eq_true, if_false, if_true]
  rw [rstripSlash_concat_slash, ha]


theorem rstripSlash_append_allslash {b : Str} (h : ∀ c ∈ b, c = '/')
    (a : Str) : rstripSlash (a ++ b) = rstripSlash a := by
  unfold rstripSlash
  rw [List.reverse_append, dropWhile_append_all b.reverse ?hall a.reverse]
  case hall =>
    intro c hc
    exact beq_iff_eq.mpr (h c (List.mem_reverse.mp hc))

/-- Claim C3 (counterexample): two concrete collisions between the
compiled output path and a per-page artifact path. First, for the
single-segment start URL `https://ex.com/docs` the compiled output path
equals the artifact path derived for the start URL itself —
`downloaded/ex.com/docs.md` under the working directory — and that
artifact path lies inside, not beside, the directory holding the
per-page artifacts. Second, even for the two-segment start URL
`https://ex.com/http/http`, the admissible crawled URL
`https://ex.com/http/http://` receives the artifact path
`downloaded/ex.com/http.md` — the artifact derivation deletes the
`http://` substring the suffix recreates — which again equals the
compiled output path. -/
theorem c3_counterexample :
    (compiled_markdown_path ("/home/user".toList) ("https://ex.com/docs".toList) =
      pjoin ("/home/user".toList)
        (save_file_path ("https://ex.com/docs".toList)) ∧
    beginsWith (base_path ("https://ex.com/docs".toList) ++ ['/'])
      (save_file_path ("https://ex.com/docs".toList)) = true) ∧
    (compiled_markdown_path ("/home/user".toList)
        ("https://ex.com/http/http".toList) =
      pjoin ("/home/user".toList)
        (save_file_path ("https://ex.com/http/http://".toList)) ∧
    link_allowed ("https://ex.com/http/http".toList) []
      ("https://ex.com/http/http://".toList) = true) := by
  decide

/-- Claim C3 (amended): for start URLs `https://host/s1/s2` whose host
does not begin with `www.`, whose components `host`, `s1`, `s2` carry no
`':'`, with `s1` non-empty and not ending in a separator (`s1` may
itself contain separators, so every path depth of two or more is
covered) and `s2` a non-empty separator-free final segment, the compiled
output `downloaded/host/s2.md` stands beside the artifact subtree
`downloaded/host/s1`, not nested under it, and collides with the
artifact of no crawled URL — every crawled URL extends the start URL as
a string prefix — whose added suffix is colon-free. Each restriction is
forced by a real collision or shift: a single-segment start URL collides
with its own artifact, a `www.` host moves the compiled directory to the
stripped host while artifacts keep the full host, and a colon-bearing
suffix can recreate a scheme substring that the artifact derivation
deletes, collapsing the artifact onto the compiled path (both collision
shapes are exhibited in the counterexample). -/
theorem c3_theorem (cwd host s1 s2 : Str)
    (hh0 : host ≠ []) (hh1 : ∀ c ∈ host, c ≠ '/') (hh2 : ∀ c ∈ host, c ≠ ':')
    (hw : beginsWith wwwL (host ++ '/' :: (s1 ++ '/' :: s2)) = false)
    (hs1a : s1 ≠ []) (hs1b : rstripSlash s1 = s1) (hs1c : ∀ c ∈ s1, c ≠ ':')
    (hs2a : s2 ≠ []) (hs2b : ∀ c ∈ s2, c ≠ '/') (hs2c : ∀ c ∈ s2, c ≠ ':') :
    compiled_markdown_path cwd (httpsL ++ (host ++ '/' :: (s1 ++ '/' :: s2))) =
      pjoin cwd (downloadedL ++ '/' :: (host ++ '/' :: (s2 ++ mdL))) ∧
    base_path (httpsL ++ (host ++ '/' :: (s1 ++ '/' :: s2))) =
      downloadedL ++ '/' :: (host ++ '/' :: s1) ∧
    beginsWith
      (base_path (httpsL ++ (host ++ '/' :: (s1 ++ '/' :: s2))) ++ ['/'])
      (downloadedL ++ '/' :: (host ++ '/' :: (s2 ++ mdL))) = false ∧
    ∀ t : Str, (∀ c ∈ t, c ≠ ':') →
      save_file_path ((httpsL ++ (host ++ '/' :: (s1 ++ '/' :: s2))) ++ t) ≠
        downloadedL ++ '/' :: (host ++ '/' :: (s2 ++ mdL)) := by
  have hmd : ∀ c ∈ mdL, c ≠ '/' := by decide
  obtain ⟨hc0, htl, hhost⟩ : ∃ h t, host = h :: t :=
    List.exists_cons_of_ne_nil hh0
  have hhead : hc0 ∈ host := hhost ▸ List.mem_cons_self hc0 htl
  obtain ⟨sc0, stl, hs2h⟩ : ∃ h t, s2 = h :: t :=
    List.exists_cons_of_ne_nil hs2a
  have hs2head : sc0 ∈ s2 := hs2h ▸ List.mem_cons_self sc0 stl
  have hbw_host : beginsWith ['/'] host = false := by
    rw [hhost]
    exact beginsWith_slash_cons (hh1 hc0 hhead) _
  have hbw_hs1 : beginsWith ['/'] (host ++ '/' :: s1) = false := by
    rw [hhost, List.cons_append]
    exact beginsWith_slash_cons (hh1 hc0 hhead) _
  have hbw_s2md : beginsWith ['/'] (s2 ++ mdL) = false := by
    rw [hs2h, List.cons_append]
    exact beginsWith_slash_cons (hs2b sc0 hs2head) _
  have hnorm : normalize_url (httpsL ++ (host ++ '/' :: (s1 ++ '/' :: s2))) =
      host ++ '/' :: (s1 ++ '/' :: s2) := by
    show rstripSlash (stripWwwPart (stripSchemePart
      (httpsL ++ (host ++ '/' :: (s1 ++ '/' :: s2))))) = _
    rw [stripSchemePart_https]
    rw [show stripWwwPart (host ++ '/' :: (s1 ++ '/' :: s2)) =
      host ++ '/' :: (s1 ++ '/' :: s2) from by
        unfold stripWwwPart
        rw [hw]
        simp]
    rw [show host ++ '/' :: (s1 ++ '/' :: s2) =
      (host ++ '/' :: (s1 ++ ['/'])) ++ s2 from by simp]
    exact rstripSlash_append_clean hs2a hs2b _
  have hdom : domain_root (httpsL ++ (host ++ '/' :: (s1 ++ '/' :: s2))) =
      host := by
    unfold domain_root
    rw [hnorm]
    exact takeWhile_until_slash hh1 (s1 ++ '/' :: s2)
  have hsp : starting_point (httpsL ++ (host ++ '/' :: (s1 ++ '/' :: s2))) =
      s2 := by
    unfold starting_point
    rw [show httpsL ++ (host ++ '/' :: (s1 ++ '/' :: s2)) =
      ((httpsL ++ host) ++ '/' :: s1) ++ '/' :: s2 from by simp]
    exact lastSegment_append hs2b _
  have hrsA : rstripSlash (host ++ '/' :: s1) = host ++ '/' :: s1 := by
    rw [show host ++ '/' :: s1 = (host ++ ['/']) ++ s1 from by simp]
    rw [rstripSlash_append (by rw [hs1b]; exact hs1a), hs1b]
  have hdir : dirname (host ++ '/' :: (s1 ++ '/' :: s2)) =
      host ++ '/' :: s1 := by
    rw [show host ++ '/' :: (s1 ++ '/' :: s2) =
      (host ++ '/' :: s1) ++ '/' :: s2 from by simp]
    exact dirname_append hs2b hrsA
      ⟨hc0, List.mem_append.mpr (Or.inl hhead), hh1 hc0 hhead⟩
  have hbase : base_path (httpsL ++ (host ++ '/' :: (s1 ++ '/' :: s2))) =
      downloadedL ++ '/' :: (host ++ '/' :: s1) := by
    unfold base_path
    rw [hnorm, hdir]
    exact pjoin_eq_cons hbw_hs1 (by decide) (by decide)
  have hne1 : joinK cwd ++ downloadedL ≠ [] := by simp [downloadedL]
  have hes1 : endsWithSlash (joinK cwd ++ downloadedL) = false :=
    endsWithSlash_append (by decide) (by decide) _
  have hne2 : (joinK cwd ++ downloadedL) ++ '/' :: host ≠ [] := by simp
  have hes2 : endsWithSlash ((joinK cwd ++ downloadedL) ++ '/' :: host) =
      false := by
    rw [show (joinK cwd ++ downloadedL) ++ '/' :: host =
      ((joinK cwd ++ downloadedL) ++ ['/']) ++ host from by simp]
    exact endsWithSlash_append hh0 hh1 _
  have hrelW : pjoin cwd (downloadedL ++ '/' :: (host ++ '/' :: (s2 ++ mdL))) =
      joinK cwd ++ (downloadedL ++ '/' :: (host ++ '/' :: (s2 ++ mdL))) :=
    pjoin_rel (beginsWith_slash_downloaded _) cwd
  refine ⟨?_, hbase, ?_, ?_⟩
  · unfold compiled_markdown_path
    rw [hdom, hsp]
    rw [pjoin_rel (by decide : beginsWith ['/'] downloadedL = false) cwd]
    rw [pjoin_eq_cons hbw_host hne1 hes1]
    rw [pjoin_eq_cons hbw_s2md hne2 hes2]
    rw [hrelW]
    simp
  · rw [hbase]
    rw [show (downloadedL ++ '/' :: (host ++ '/' :: s1)) ++ ['/'] =
      (downloadedL ++ '/' :: (host ++ ['/'])) ++ (s1 ++ ['/']) from by simp]
    rw [show downloadedL ++ '/' :: (host ++ '/' :: (s2 ++ mdL)) =
      (downloadedL ++ '/' :: (host ++ ['/'])) ++ (s2 ++ mdL) from by simp]
    rw [beginsWith_append_cancel]
    refine not_beginsWith_of_mem
      (List.mem_append.mpr (Or.inr (List.mem_singleton.mpr rfl))) ?_
    intro c hc
    rcases List.mem_append.mp hc with h | h
    · exact hs2b c h
    · exact hmd c h
  · intro t ht
    have hnc : ∀ c ∈ (host ++ '/' :: (s1 ++ '/' :: s2)) ++ t, c ≠ ':' := by
      intro c hc
      simp only [List.mem_append, List.mem_cons] at hc
      rcases hc with (h | rfl | h | rfl | h) | h
      · exact hh2 c h
      · decide
      · exact hs1c c h
      · decide
      · exact hs2c c h
      · exact ht c h
    have hrepl : replaceAll (replaceAll
        ((httpsL ++ (host ++ '/' :: (s1 ++ '/' :: s2))) ++ t) httpsL) httpL =
        (host ++ '/' :: (s1 ++ '/' :: s2)) ++ t := by
      rw [show (httpsL ++ (host ++ '/' :: (s1 ++ '/' :: s2))) ++ t =
        httpsL ++ ((host ++ '/' :: (s1 ++ '/' :: s2)) ++ t) from by simp]
      rw [replaceAll_head (by decide) _]
      rw [replaceAll_no_occurrence (x := ':') (by decide) hnc]
      exact replaceAll_no_occurrence (x := ':') (by decide) hnc
    obtain ⟨z, hz⟩ : ∃ z, rstripSlash (s2 ++ t) = s2 ++ z := by
      by_cases hrt : rstripSlash t = []
      · refine ⟨[], ?_⟩
        have h1 : t.reverse.dropWhile (fun c => c == '/') = [] := by
          have h2 := hrt
          unfold rstripSlash at h2
          exact List.reverse_eq_nil_iff.mp h2
        have hts : ∀ c ∈ t, c = '/' := by
          intro c hcm
          have h3 := List.dropWhile_eq_nil_iff.mp h1 c (List.mem_reverse.mpr hcm)
          exact beq_iff_eq.mp (by simpa using h3)
        rw [rstripSlash_append_allslash hts s2, rstripSlash_all_noslash hs2b,
          List.append_nil]
      · exact ⟨rstripSlash t, rstripSlash_append hrt⟩
    have hzne : rstripSlash (s2 ++ t) ≠ [] := by
      rw [hz]
      intro hcon
      exact hs2a (List.append_eq_nil.mp hcon).1
    have hart : artifact_norm
        ((httpsL ++ (host ++ '/' :: (s1 ++ '/' :: s2))) ++ t) =
        (host ++ '/' :: (s1 ++ ['/'])) ++ (s2 ++ z) := by
      unfold artifact_norm
      rw [hrepl]
      rw [show (host ++ '/' :: (s1 ++ '/' :: s2)) ++ t =
        (host ++ '/' :: (s1 ++ ['/'])) ++ (s2 ++ t) from by simp]
      rw [rstripSlash_append hzne, hz]
    have hbfull : beginsWith ['/']
        (((host ++ '/' :: (s1 ++ ['/'])) ++ (s2 ++ z)) ++ mdL) = false := by
      rw [hhost]
      rw [show (((hc0 :: htl) ++ '/' :: (s1 ++ ['/'])) ++ (s2 ++ z)) ++ mdL =
        hc0 :: (((htl ++ '/' :: (s1 ++ ['/'])) ++ (s2 ++ z)) ++ mdL) from by
          simp]
      exact beginsWith_slash_cons (hh1 hc0 hhead) _
    have hsave : save_file_path
        ((httpsL ++ (host ++ '/' :: (s1 ++ '/' :: s2))) ++ t) =
        downloadedL ++
          '/' :: (((host ++ '/' :: (s1 ++ ['/'])) ++ (s2 ++ z)) ++ mdL) := by
      unfold save_file_path
      rw [hart]
      exact pjoin_eq_cons hbfull (by decide) (by decide)
    intro heq
    rw [hsave] at heq
    have hX : ((host ++ '/' :: (s1 ++ ['/'])) ++ (s2 ++ z)) ++ mdL =
        host ++ '/' :: (s2 ++ mdL) := by
      have h1 := List.append_cancel_left heq
      simpa using h1
    have hY : s1 ++ '/' :: ((s2 ++ z) ++ mdL) = s2 ++ mdL := by
      have h1 : (host ++ ['/']) ++ (s1 ++ '/' :: ((s2 ++ z) ++ mdL)) =
          (host ++ ['/']) ++ (s2 ++ mdL) := by
        calc (host ++ ['/']) ++ (s1 ++ '/' :: ((s2 ++ z) ++ mdL))
            = ((host ++ '/' :: (s1 ++ ['/'])) ++ (s2 ++ z)) ++ mdL := by simp
          _ = host ++ '/' :: (s2 ++ mdL) := hX
          _ = (host ++ ['/']) ++ (s2 ++ mdL) := by simp
      exact List.append_cancel_left h1
    have hmem : ('/' : Char) ∈ s2 ++ mdL := by
      rw [← hY]
      exact List.mem_append.mpr (Or.inr (List.mem_cons_self '/' _))
    rcases List.mem_append.mp hmem with h | h
    · exact hs2b '/' h rfl
    · exact hmd '/' h rfl

/-- Claim C3 (witness): the amended layout law at the two-segment start
URL `https://ex.com/docs/guide`, with the crawled extension `/page`. -/
theorem c3_witness :
    compiled_markdown_path ("/home/user".toList)
      (httpsL ++ (("ex.com".toList) ++ '/' ::
        (("docs".toList) ++ '/' :: ("guide".toList)))) =
      pjoin ("/home/user".toList)
        (downloadedL ++ '/' ::
          (("ex.com".toList) ++ '/' :: (("guide".toList) ++ mdL))) ∧
    save_file_path ((httpsL ++ (("ex.com".toList) ++ '/' ::
        (("docs".toList) ++ '/' :: ("guide".toList)))) ++ ("/page".toList)) ≠
      downloadedL ++ '/' ::
        (("ex.com".toList) ++ '/' :: (("guide".toList) ++ mdL)) := by
  have h := c3_theorem ("/home/user".toList) ("ex.com".toList)
    ("docs".toList) ("guide".toList) (by decide) (by decide) (by decide)
    (by decide) (by decide) (by decide) (by decide) (by decide) (by decide)
    (by decide)
  exact ⟨h.1, h.2.2.2 ("/page".toList) (by decide)⟩
